import Mathlib

/-!
# Verification of the uigen core specification

A shallow embedding of the uigen in-memory file store, path resolver, module
transformer, module-graph builder and preview controller, together with the
chat-context helpers from `src/lib/contexts/chat-context.tsx`.

The engine itself (`src/lib/file-system.ts`, `src/lib/transform/jsx-transformer.ts`,
the preview frame) is not part of the sources available here, so those
components are modelled from the specification text; the chat-context
definitions are translated from the TypeScript source directly.

Paths are modelled as lists of segments of a POSIX-style absolute path
(the list `["components", "Button.jsx"]` stands for `/components/Button.jsx`),
and file contents as lists of characters.
-/

namespace UIGen

/-- An absolute POSIX-style path, as its list of segments. -/
abbrev Path := List String

/-- File content, as a list of characters. -/
abbrev Content := List Char

/-- Modelled from the spec: the closed variant of file kinds
(§9 design notes), decided from the path extension alone. -/
inductive FileKind where
  | componentScript
  | plainScript
  | style
  | asset
deriving DecidableEq, Repr

/-- Split a character list at every occurrence of the separator. -/
def splitSeg (sep : Char) : List Char → List (List Char)
  | [] => [[]]
  | c :: t =>
    match splitSeg sep t with
    | [] => [[c]]
    | h :: r =>
      if c = sep then [] :: h :: r else (c :: h) :: r

/-- The extension of one path segment: the part after the last dot,
or `""` when the segment has no dot. -/
def extOfSeg (seg : String) : String :=
  let parts := splitSeg '.' seg.data
  if parts.length ≤ 1 then "" else String.mk (parts.getLastD [])

/-- The extension of a path: the extension of its last segment. -/
def extOfPath (p : Path) : String :=
  extOfSeg (p.getLastD "")

/-- Modelled from the spec: kind is a pure function of the path
(`kind may be re-derived from path extension`). -/
def kindOfPath (p : Path) : FileKind :=
  let e := extOfPath p
  if e = "jsx" ∨ e = "tsx" then .componentScript
  else if e = "js" ∨ e = "ts" then .plainScript
  else if e = "css" then .style
  else .asset

/-- The fixed list of recognized source-kind extensions. -/
def recognizedExts : List String :=
  ["jsx", "tsx", "js", "ts", "css", "json"]

/-- Whether a path already carries a recognized source-kind extension. -/
def hasSourceExt (p : Path) : Bool :=
  decide (extOfPath p ∈ recognizedExts)

/-- Modelled from the spec: a FileRecord holds raw content and a
last-modified timestamp; the kind is derivable from the path (§3). -/
structure FileRecord where
  content : Content
  lastModified : Nat
deriving DecidableEq, Repr

/-- Modelled from the spec: the in-memory File Store, an association of
absolute paths to records (the missing `src/lib/file-system.ts`). -/
structure FS where
  files : List (Path × FileRecord)
deriving DecidableEq, Repr

/-- The empty store. -/
def emptyFS : FS := ⟨[]⟩

/-- The path→content mapping of a store (first record wins on lookup). -/
def contentOf (fs : FS) (p : Path) : Option Content :=
  (fs.files.lookup p).map (·.content)

/-- Whether a path names a record in the store. -/
def existsPath (fs : FS) (p : Path) : Bool :=
  (fs.files.lookup p).isSome

/-- Modelled from the spec: `write(path, content)` creates or fully
overwrites a record and updates last-modified; it never fails (§4.1). -/
def write (fs : FS) (p : Path) (c : Content) (t : Nat) : FS :=
  if existsPath fs p then
    ⟨fs.files.map (fun e => if e.1 = p then (p, ⟨c, t⟩) else e)⟩
  else
    ⟨fs.files ++ [(p, ⟨c, t⟩)]⟩

/-- Modelled from the spec: `remove(path)` removes the exact record and all
records under the directory named by `path`; it never fails (§4.1).
With segment paths, both cases are exactly segment-wise prefixes. -/
def remove (fs : FS) (p : Path) : FS :=
  ⟨fs.files.filter (fun e => !(p.isPrefixOf e.1))⟩

/-- Scanning worker for `countOccur`; the fuel is an upper bound on the
remaining text length, so it never runs out before the text does. -/
def countOccurA (pat : Content) : Nat → Content → Nat
  | _, [] => 0
  | 0, _ => 0
  | fuel + 1, c :: t =>
    if pat ≠ [] ∧ pat.isPrefixOf (c :: t) then
      1 + countOccurA pat fuel ((c :: t).drop pat.length)
    else
      countOccurA pat fuel t

/-- Number of non-overlapping occurrences of `pat` in `s`, scanning left to
right; the empty pattern occurs zero times. -/
def countOccur (pat s : Content) : Nat :=
  countOccurA pat s.length s

/-- Scanning worker for `replaceOcc`; the fuel is an upper bound on the
remaining text length, so it never runs out before the text does. -/
def replaceOccA (pat rep : Content) (all : Bool) : Nat → Content → Content
  | _, [] => []
  | 0, s => s
  | fuel + 1, c :: t =>
    if pat ≠ [] ∧ pat.isPrefixOf (c :: t) then
      rep ++ (if all then replaceOccA pat rep all fuel ((c :: t).drop pat.length)
              else (c :: t).drop pat.length)
    else
      c :: replaceOccA pat rep all fuel t

/-- Replace the first (or, when `all` is true, every) non-overlapping
occurrence of `pat` by `rep`, scanning left to right. -/
def replaceOcc (pat rep : Content) (all : Bool) (s : Content) : Content :=
  replaceOccA pat rep all s.length s

/-- Modelled from the spec: the recoverable store errors (§7). -/
inductive StoreError where
  | NotFound
  | Conflict
  | ContentMismatch
deriving DecidableEq, Repr

/-- Modelled from the spec: `patch(path, searchText, replaceText, replaceAll?)`
fails with NotFound when the path is absent, with ContentMismatch when the
search text does not occur, or occurs more than once while `replaceAll` is
false; on success it replaces the match(es) and updates last-modified (§4.1). -/
def patch (fs : FS) (p : Path) (searchText replaceText : Content)
    (all : Bool) (t : Nat) : Except StoreError FS :=
  match contentOf fs p with
  | none => .error .NotFound
  | some c =>
    let n := countOccur searchText c
    if n = 0 then .error .ContentMismatch
    else if all = false ∧ 1 < n then .error .ContentMismatch
    else .ok (write fs p (replaceOcc searchText replaceText all c) t)

/-- Modelled from the spec: `rename(oldPath, newPath)` fails with NotFound
when the old path is absent and with Conflict when the new path exists;
otherwise it moves the record to the new key (§4.1). -/
def rename (fs : FS) (o n : Path) : Except StoreError FS :=
  match fs.files.lookup o with
  | none => .error .NotFound
  | some r =>
    if existsPath fs n then .error .Conflict
    else .ok ⟨fs.files.filter (fun e => !(e.1 == o)) ++ [(n, r)]⟩

/-- Modelled from the spec: `serialize()` produces the flat path→content
mapping (§4.1, §6). -/
def serialize (fs : FS) : List (Path × Content) :=
  fs.files.map (fun e => (e.1, e.2.content))

/-- Modelled from the spec: `restore(snapshot)` accepts the flat
path→content mapping; kind is re-derived from the path and the timestamp
restarts at zero (§4.1). -/
def restore (snapshot : List (Path × Content)) : FS :=
  ⟨snapshot.map (fun e => (e.1, ⟨e.2, 0⟩))⟩

/-- One File Store operation, as issued by the agent/tool layer (§6). -/
inductive Op where
  | write (p : Path) (c : Content) (t : Nat)
  | patch (p : Path) (searchText replaceText : Content) (all : Bool) (t : Nat)
  | rename (o n : Path)
  | remove (p : Path)

/-- Apply one operation; a failing operation leaves the store unchanged
(mutating operations are atomic, §4.1). -/
def applyOp (fs : FS) : Op → FS
  | .write p c t => write fs p c t
  | .patch p s r a t =>
    match patch fs p s r a t with
    | .ok fs2 => fs2
    | .error _ => fs
  | .rename o n =>
    match rename fs o n with
    | .ok fs2 => fs2
    | .error _ => fs
  | .remove p => remove fs p

/-- Apply a sequence of operations from left to right. -/
def applyOps (ops : List Op) (fs : FS) : FS :=
  ops.foldl applyOp fs

/-- Scenario C store: `/App.jsx` whose content holds "Hello" twice. -/
def fsScenC : FS :=
  ⟨[(["App.jsx"], ⟨("Hello world, Hello again").toList, 0⟩)]⟩

/-- The directory of a path (all segments but the file name). -/
def dirOf (p : Path) : Path := p.dropLast

/-- Standard dot-segment normalization of specifier segments against a base
directory: `.` and empty segments are skipped, `..` pops one segment. -/
def normSegs : Path → List String → Path
  | acc, [] => acc
  | acc, s :: rest =>
    if s = "" ∨ s = "." then normSegs acc rest
    else if s = ".." then normSegs acc.dropLast rest
    else normSegs (acc ++ [s]) rest

/-- Append an extension suffix to the last segment of a path. -/
def appendToLast (p : Path) (ext : String) : Path :=
  match p.getLast? with
  | none => p
  | some l => p.dropLast ++ [l ++ ext]

/-- Modelled from the spec: the fixed ordered probe list — component-script
extension, then plain-script extension, then an index file under the path
treated as a directory (§4.2 step 3). -/
def probeCandidates (p : Path) : List Path :=
  [appendToLast p ".jsx", appendToLast p ".js", p ++ ["index.jsx"]]

/-- Modelled from the spec: the outcome of resolving one import
specifier (§3). -/
inductive ResolvedSpecifier where
  | inStore (p : Path)
  | external (s : String)
  | unresolved (s : String) (importer : Path)
deriving DecidableEq, Repr

/-- Modelled from the spec: resolve an already-normalized in-store path —
an existing file wins over probing; otherwise an extension-less path is
probed against the fixed candidate list, first existing candidate wins;
no candidate means the specifier is Unresolved (§4.2 step 3). -/
def resolvePath (fs : FS) (s : String) (importer : Path) (p : Path) :
    ResolvedSpecifier :=
  if existsPath fs p then .inStore p
  else if hasSourceExt p then .unresolved s importer
  else
    match (probeCandidates p).find? (fun c => existsPath fs c) with
    | some c => .inStore c
    | none => .unresolved s importer

/-- Prefix test on the character data of two strings. -/
def strHasPrefix (pre s : String) : Bool :=
  pre.data.isPrefixOf s.data

/-- Whether a specifier carries the root-alias marker (§4.2 step 1). -/
def isAliasSpec (s : String) : Bool :=
  strHasPrefix "@/" s

/-- Whether a specifier carries a relative marker (§4.2 step 2). -/
def isRelativeSpec (s : String) : Bool :=
  strHasPrefix "./" s || strHasPrefix "../" s

/-- The segments of a specifier string, split on the path separator. -/
def specSegs (l : List Char) : List String :=
  (splitSeg '/' l).map String.mk

/-- The normalized in-store path named by an alias-marked or relative
specifier (§4.2 steps 1 and 2). -/
def normTarget (s : String) (importer : Path) : Path :=
  if isAliasSpec s then normSegs [] (specSegs (s.data.drop 2))
  else normSegs (dirOf importer) (specSegs s.data)

/-- Modelled from the spec: the Path Resolver (§4.2) — the root-alias marker
maps under the store root, relative markers resolve against the importer's
directory, and any other specifier names an external package, never looked
up in the File Store. -/
def resolve (fs : FS) (s : String) (importer : Path) : ResolvedSpecifier :=
  if isAliasSpec s then resolvePath fs s importer (normTarget s importer)
  else if isRelativeSpec s then resolvePath fs s importer (normTarget s importer)
  else .external s

/-- Store for the C6 witness: only `/components/Button.jsx` exists. -/
def fsProbe : FS :=
  ⟨[(["components", "Button.jsx"], ⟨[], 0⟩)]⟩

/-- First store for the C7 witness. -/
def fsDet1 : FS :=
  ⟨[(["App.jsx"], ⟨("A").toList, 0⟩), (["index.css"], ⟨[], 0⟩)]⟩

/-- Second store for the C7 witness: the same paths in the other order with
different contents and timestamps. -/
def fsDet2 : FS :=
  ⟨[(["index.css"], ⟨("B").toList, 9⟩), (["App.jsx"], ⟨("C").toList, 4⟩)]⟩

/-- Modelled from the spec: a per-file transform failure — a syntax error
with a source location (§4.3, §7). -/
inductive TransformError where
  | syntaxError (loc : Nat)
deriving DecidableEq, Repr

/-- The character sequence that introduces a static import specifier. -/
def fromMarker : Content := ['f', 'r', 'o', 'm', ' ', '"']

/-- Scanning worker for `extractImports`: at each `from "` marker read the
quoted specifier; an unterminated quote is a syntax error located after the
opening quote. Fuel bounds the remaining text length. -/
def scanImportsA : Nat → Nat → Content → Except TransformError (List String)
  | _, _, [] => .ok []
  | 0, _, _ => .ok []
  | fuel + 1, i, c :: t =>
    if fromMarker.isPrefixOf (c :: t) then
      let rest := (c :: t).drop 6
      let quoted := rest.takeWhile (fun ch => ch != '"')
      if quoted.length = rest.length then .error (.syntaxError (i + 6))
      else
        match scanImportsA fuel (i + 7 + quoted.length) (rest.drop (quoted.length + 1)) with
        | .error e => .error e
        | .ok others => .ok (String.mk quoted :: others)
    else
      scanImportsA fuel (i + 1) t

/-- Modelled from the spec: the Module Transformer's discovery of static
specifiers of imports in one file's source, failing with a located
SyntaxError on unparseable source (§4.3). -/
def extractImports (c : Content) : Except TransformError (List String) :=
  scanImportsA c.length 0 c

/-- The import specifiers of the file at `p`, empty when the file is absent
or does not parse. -/
def importsOf (fs : FS) (p : Path) : List String :=
  match contentOf fs p with
  | none => []
  | some c =>
    match extractImports c with
    | .ok l => l
    | .error _ => []

/-- The in-store resolved imports of the module at `p`: each specifier
paired with its resolved path, in source order. -/
def resolvedTargets (fs : FS) (p : Path) : List (String × Path) :=
  (importsOf fs p).filterMap (fun s =>
    match resolve fs s p with
    | .inStore q => some (s, q)
    | _ => none)

/-- Modelled from the spec: style-sheet specifiers are elided from the
execution graph (§4.3), so a module's resolution-table entries are its
in-store resolved imports of non-style kind; the stable handle of each
target is keyed by its path. -/
def moduleEdges (fs : FS) (p : Path) : List (String × Path) :=
  (resolvedTargets fs p).filter (fun e => decide (¬ kindOfPath e.2 = .style))

/-- The style-sheet imports of the module at `p`, collected rather than
executed (§4.3). -/
def styleEdges (fs : FS) (p : Path) : List (String × Path) :=
  (resolvedTargets fs p).filter (fun e => decide (kindOfPath e.2 = .style))

/-- Modelled from the spec: a CompiledModule — loadable handle, the
resolution table covering only this module's own specifiers, and the
extracted style content (§3). Handles are modelled as the stable per-path
token, the path itself. -/
structure CompiledModule where
  handle : Path
  table : List (String × Path)
  styleContent : List Content
deriving DecidableEq, Repr

/-- Compile one file: mint its handle, its resolution table and its
collected style contents. -/
def compileModule (fs : FS) (p : Path) : CompiledModule :=
  { handle := p
  , table := moduleEdges fs p
  , styleContent := (styleEdges fs p).filterMap (fun e => contentOf fs e.2) }

/-- Claim-the-path-before-work insertion: a path already visited is not
enqueued again (§9 design notes). -/
def insertPath (v : List Path) (q : Path) : List Path :=
  if q ∈ v then v else q :: v

/-- One traversal round of the Module Graph Builder: enqueue every resolved
in-store non-style target of every visited module, deduplicating by path
(visit-once bookkeeping, §4.4, §5). -/
def stepList (fs : FS) (v : List Path) : List Path :=
  ((v.map (fun p => (moduleEdges fs p).map Prod.snd)).flatten).foldl insertPath v

/-- Modelled from the spec: the set of paths visited by the graph traversal
from the entry; iterating one more round than the store has files always
reaches the closure. -/
def reachList (fs : FS) (entry : Path) : List Path :=
  (stepList fs)^[fs.files.length + 1] [entry]

/-- Transitive reachability from the entry via resolvable non-style
edges. -/
inductive Reaches (fs : FS) (entry : Path) : Path → Prop where
  | base : Reaches fs entry entry
  | step {p q : Path} : Reaches fs entry p →
      q ∈ (moduleEdges fs p).map Prod.snd → Reaches fs entry q

/-- Modelled from the spec: the ModuleGraph, a mapping from path to
CompiledModule (§3). -/
structure ModuleGraph where
  modules : List (Path × CompiledModule)
deriving DecidableEq, Repr

/-- Modelled from the spec: the PreviewManifest — entry handle, flat
token→handle table, collected style content (§3). -/
structure PreviewManifest where
  entryHandle : Path
  table : List (Path × Path)
  styles : List Content
deriving DecidableEq, Repr

/-- A per-file diagnostic aggregated into a failed build (§7). -/
inductive BuildDiag where
  | entryMissing (p : Path)
  | fileError (p : Path) (e : TransformError)
deriving DecidableEq, Repr

/-- The result of one build: a graph and manifest, or BuildFailed with the
aggregated per-file diagnostics (§4.4, §7). -/
inductive BuildResult where
  | ok (g : ModuleGraph) (m : PreviewManifest)
  | buildFailed (diags : List BuildDiag)
deriving DecidableEq, Repr

/-- The transform error of the file at `p`, if its source fails to parse. -/
def transformErrOf (fs : FS) (p : Path) : Option TransformError :=
  match contentOf fs p with
  | none => none
  | some c =>
    match extractImports c with
    | .ok _ => none
    | .error e => some e

/-- The per-file transform diagnostics of every reachable file (§7: the
builder aggregates all per-file errors before deciding the outcome). -/
def buildDiags (fs : FS) (entry : Path) : List BuildDiag :=
  (reachList fs entry).filterMap
    (fun p => (transformErrOf fs p).map (fun e => BuildDiag.fileError p e))

/-- One CompiledModule per visited path. -/
def buildModules (fs : FS) (entry : Path) : List (Path × CompiledModule) :=
  (reachList fs entry).map (fun p => (p, compileModule fs p))

/-- Modelled from the spec: the Module Graph Builder (§4.4) — fails
wholesale when the entry is missing, aggregates per-file transform errors of
reachable files into BuildFailed, and otherwise compiles every reachable
file exactly once into the graph and manifest. -/
def build (fs : FS) (entry : Path) : BuildResult :=
  if existsPath fs entry then
    if (buildDiags fs entry).isEmpty then
      .ok ⟨buildModules fs entry⟩
        ⟨entry, (buildModules fs entry).map (fun e => (e.1, e.2.handle)),
          ((buildModules fs entry).map (fun e => e.2.styleContent)).flatten⟩
    else .buildFailed (buildDiags fs entry)
  else .buildFailed [.entryMissing entry]

/-- How many entries of a path list equal `p`. -/
def countPath (l : List Path) (p : Path) : Nat :=
  (l.filter (fun q => decide (q = p))).length

/-- Store for the C2 witness: an entry importing one component, plus one
file no one imports. -/
def fsGraph : FS :=
  ⟨[ (["App.jsx"],
      ⟨("import Button from \"@/components/Button\";").toList, 0⟩)
   , (["components", "Button.jsx"], ⟨("export default 0;").toList, 0⟩)
   , (["Unused.jsx"], ⟨("export default 1;").toList, 0⟩) ]⟩

/-- The graph a successful build of `fsGraph` yields. -/
def graphG : ModuleGraph := ⟨buildModules fsGraph ["App.jsx"]⟩

/-- The manifest a successful build of `fsGraph` yields. -/
def graphM : PreviewManifest :=
  ⟨["App.jsx"],
    (buildModules fsGraph ["App.jsx"]).map (fun e => (e.1, e.2.handle)),
    ((buildModules fsGraph ["App.jsx"]).map (fun e => e.2.styleContent)).flatten⟩

/-- Store for the C3 witness: two files that import each other. -/
def fsCyc : FS :=
  ⟨[ (["A.jsx"], ⟨("import B from \"@/B\";").toList, 0⟩)
   , (["B.jsx"], ⟨("import A from \"@/A\";").toList, 0⟩) ]⟩

/-- The graph a successful build of `fsCyc` yields. -/
def cycGraph : ModuleGraph := ⟨buildModules fsCyc ["A.jsx"]⟩

/-- The manifest a successful build of `fsCyc` yields. -/
def cycManifest : PreviewManifest :=
  ⟨["A.jsx"],
    (buildModules fsCyc ["A.jsx"]).map (fun e => (e.1, e.2.handle)),
    ((buildModules fsCyc ["A.jsx"]).map (fun e => e.2.styleContent)).flatten⟩

/-- Modelled from the spec: the outcome surfaced to the rendering host —
RenderedOK, BuildFailed with diagnostics, or RuntimeError (§6, §7). -/
inductive PreviewOutcome where
  | renderedOK
  | buildFailedOutcome (diags : List BuildDiag)
  | runtimeError (msg : String)
deriving DecidableEq, Repr

/-- Modelled from the spec: the Preview Sandbox Controller — a failed build
is surfaced as BuildFailed and nothing is executed; only errors thrown by
sandboxed execution of a successful build's manifest surface as
RuntimeError (§4.5). The sandboxed execution itself is abstracted as a
function from the manifest to a possible thrown message. -/
def runPreview (fs : FS) (entry : Path)
    (exec : PreviewManifest → Except String Unit) : PreviewOutcome :=
  match build fs entry with
  | .buildFailed d => .buildFailedOutcome d
  | .ok _ m =>
    match exec m with
    | .ok _ => .renderedOK
    | .error msg => .runtimeError msg

/-- Sandboxed execution that never throws, for the C8 witness. -/
def execOk : PreviewManifest → Except String Unit := fun _ => .ok ()

/-- Translated from `src/lib/contexts/chat-context.tsx`: the context value
ChatProvider supplies (messages, current input and chat status; the two
handler callbacks are modelled separately below). -/
structure ChatContextValue where
  messages : List String
  input : String
  status : String
deriving DecidableEq, Repr

/-- Translated from `useChat` (chat-context.tsx, lines 109–115): reading the
context outside a provider throws; inside one, the provided value is
returned unchanged. -/
def useChatHook (ctx : Option ChatContextValue) :
    Except String ChatContextValue :=
  match ctx with
  | none => .error "useChat must be used within a ChatProvider"
  | some v => .ok v

/-- Translated from ChatProvider (chat-context.tsx, line 101): the provided
status falls back to "idle" when the underlying chat status is undefined. -/
def providerStatus (st : Option String) : String :=
  st.getD "idle"

/-- The value ChatProvider provides to its children (lines 94–106). -/
def providerValue (messages : List String) (input : String)
    (st : Option String) : ChatContextValue :=
  ⟨messages, input, providerStatus st⟩

/-- Translated from handleSubmit (chat-context.tsx, lines 76–85): the
observable state of one form submission — the input field, the messages
sent so far, and whether the default form action was prevented. -/
structure ChatFormState where
  input : String
  sent : List String
  defaultPrevented : Bool
deriving DecidableEq, Repr

/-- Translated from handleSubmit: prevent the default form action; when the
trimmed input is non-empty, send the (untrimmed) input and clear the field;
otherwise do nothing else. -/
def handleSubmit (s : ChatFormState) : ChatFormState :=
  let s1 : ChatFormState := { s with defaultPrevented := true }
  if s.input.trim ≠ "" then
    { s1 with sent := s1.sent ++ [s.input], input := "" }
  else s1

/-- Serialization followed by restoration preserves the path→content map. -/
theorem restore_serialize_contentOf (fs : FS) (p : Path) :
    contentOf (restore (serialize fs)) p = contentOf fs p := by
  unfold contentOf restore serialize
  simp only [List.map_map, Function.comp]
  induction fs.files with
  | nil => rfl
  | cons e t ih =>
    obtain ⟨k, r⟩ := e
    by_cases h : p = k
    · subst h
      simp [List.lookup]
    · have hb : (p == k) = false := by simp [h]
      simp only [List.map_cons, List.lookup, hb]
      exact ih

/-- C1: for every sequence of File Store operations applied to the initially
empty store, restoring from the serialization yields a store whose
path→content mapping is identical to the original store's mapping. -/
theorem fileStore_roundTrip (ops : List Op) (p : Path) :
    contentOf (restore (serialize (applyOps ops emptyFS))) p
      = contentOf (applyOps ops emptyFS) p :=
  restore_serialize_contentOf (applyOps ops emptyFS) p

/-- C5: `remove p` deletes exactly the records whose path has `p` as a
directory-style prefix (including `p` itself), leaves every other record's
content unchanged, and is idempotent (so it never fails and a second
application is a no-op). -/
theorem remove_prefix_semantics (fs : FS) (p : Path) :
    (∀ q, contentOf (remove fs p) q
        = (if p.isPrefixOf q then none else contentOf fs q))
      ∧ remove (remove fs p) p = remove fs p := by
  constructor
  · intro q
    unfold remove contentOf
    simp only
    induction fs.files with
    | nil =>
      simp only [List.filter_nil, List.lookup]
      split <;> rfl
    | cons e t ih =>
      obtain ⟨k, r⟩ := e
      by_cases hq : q = k
      · subst hq
        by_cases hpre : p.isPrefixOf q = true
        · rw [List.filter_cons, if_neg (by simp [hpre])]
          rw [if_pos hpre]
          rw [if_pos hpre] at ih
          exact ih
        · have hf : p.isPrefixOf q = false := by
            simp only [Bool.not_eq_true] at hpre
            exact hpre
          rw [List.filter_cons, if_pos (by simp [hf])]
          rw [if_neg (by simp [hf])]
          simp [List.lookup]
      · have hb : (q == k) = false := by simp [hq]
        by_cases hpk : p.isPrefixOf k = true
        · rw [List.filter_cons, if_neg (by simp [hpk])]
          have hrhs : List.lookup q ((k, r) :: t) = List.lookup q t := by
            simp [List.lookup, hb]
          rw [hrhs]
          exact ih
        · have hf : p.isPrefixOf k = false := by
            simp only [Bool.not_eq_true] at hpk
            exact hpk
          rw [List.filter_cons, if_pos (by simp [hf])]
          simp only [List.lookup, hb]
          exact ih
  · have hfilter : ∀ (l : List (Path × FileRecord)),
        (l.filter (fun e => !(p.isPrefixOf e.1))).filter
            (fun e => !(p.isPrefixOf e.1))
          = l.filter (fun e => !(p.isPrefixOf e.1)) := by
      intro l
      induction l with
      | nil => rfl
      | cons e t ih =>
        cases he : (!(p.isPrefixOf e.1)) <;>
          simp [List.filter_cons, he, ih]
    simp only [remove]
    rw [hfilter]

/-- C4: `patch` fails with NotFound when the path is absent, fails with
ContentMismatch when the search text does not occur in the current content or
occurs more than once while `replaceAll` is false, and every failing patch
leaves the store's path→content mapping unchanged. -/
theorem patch_failure_semantics (fs : FS) (p : Path) (s r : Content)
    (a : Bool) (t : Nat) :
    (contentOf fs p = none → patch fs p s r a t = .error .NotFound)
    ∧ (∀ c, contentOf fs p = some c →
        (countOccur s c = 0 ∨ (a = false ∧ 1 < countOccur s c)) →
        patch fs p s r a t = .error .ContentMismatch)
    ∧ (∀ e, patch fs p s r a t = .error e →
        applyOp fs (.patch p s r a t) = fs) := by
  refine ⟨?_, ?_, ?_⟩
  · intro h
    unfold patch
    rw [h]
  · intro c hc hbad
    unfold patch
    rw [hc]
    simp only
    rcases hbad with h0 | h1
    · rw [if_pos h0]
    · have hne : ¬ countOccur s c = 0 := by omega
      rw [if_neg hne, if_pos h1]
  · intro e he
    show (match patch fs p s r a t with
          | .ok fs2 => fs2
          | .error _ => fs) = fs
    rw [he]

/-- Witness for C4: patching `/App.jsx` replacing "Hello" without
`replaceAll` fails with ContentMismatch and leaves the store unchanged. -/
theorem patch_failure_semantics_witness :
    patch fsScenC ["App.jsx"] ("Hello").toList ("Hi").toList false 1
        = .error .ContentMismatch
      ∧ applyOp fsScenC
          (.patch ["App.jsx"] ("Hello").toList ("Hi").toList false 1)
        = fsScenC := by
  have h := patch_failure_semantics fsScenC ["App.jsx"]
    ("Hello").toList ("Hi").toList false 1
  have h1 := h.2.1 (("Hello world, Hello again").toList) rfl
    (Or.inr ⟨rfl, by decide⟩)
  exact ⟨h1, h.2.2 _ h1⟩

/-- An alias-marked or relative specifier resolves through `resolvePath` at
its normalized target path. -/
theorem resolve_eq_resolvePath (fs : FS) (s : String) (importer : Path)
    (hs : isAliasSpec s = true ∨ isRelativeSpec s = true) :
    resolve fs s importer = resolvePath fs s importer (normTarget s importer) := by
  unfold resolve
  rcases hs with h | h
  · rw [if_pos h]
  · by_cases h2 : isAliasSpec s = true
    · rw [if_pos h2]
    · rw [if_neg h2, if_pos h]

/-- C6: for an alias-marked or relative specifier, a normalized path naming
an existing file is returned without probing; an extension-less path that
does not name a file is probed against the fixed ordered candidate list and
the first existing candidate is returned, Unresolved when none exists. -/
theorem resolver_probe_semantics (fs : FS) (s : String) (importer : Path)
    (hs : isAliasSpec s = true ∨ isRelativeSpec s = true) :
    (existsPath fs (normTarget s importer) = true →
        resolve fs s importer = .inStore (normTarget s importer))
    ∧ (existsPath fs (normTarget s importer) = false →
        hasSourceExt (normTarget s importer) = false →
        resolve fs s importer =
          match (probeCandidates (normTarget s importer)).find?
              (fun c => existsPath fs c) with
          | some c => .inStore c
          | none => .unresolved s importer) := by
  rw [resolve_eq_resolvePath fs s importer hs]
  constructor
  · intro hex
    unfold resolvePath
    rw [if_pos hex]
  · intro hex hext
    unfold resolvePath
    rw [if_neg (by simp [hex]), if_neg (by simp [hext])]

/-- Witness for C6: `@/components/Button` has no recognized extension, does
not name a file, and probing returns the component-script candidate
`/components/Button.jsx`. -/
theorem resolver_probe_semantics_witness :
    resolve fsProbe "@/components/Button" ["App.jsx"]
      = .inStore ["components", "Button.jsx"] := by
  have h := resolver_probe_semantics fsProbe "@/components/Button" ["App.jsx"]
    (Or.inl (by decide))
  have h2 := h.2 (by decide) (by decide)
  rw [h2]
  rfl

/-- C7: the Path Resolver is a deterministic pure function of the specifier,
the importer and the store's path namespace — two stores exposing the same
set of paths resolve every specifier identically (and in particular repeated
invocations against an unchanged store agree). -/
theorem resolver_deterministic (s : String) (importer : Path) (fs fs2 : FS)
    (h : ∀ p, existsPath fs p = existsPath fs2 p) :
    resolve fs s importer = resolve fs2 s importer := by
  unfold resolve resolvePath
  simp only [h]

/-- Witness for C7: the two stores carry the same path namespace, so the
resolver treats them identically. -/
theorem resolver_deterministic_witness :
    resolve fsDet1 "@/App" ["index.jsx"] = resolve fsDet2 "@/App" ["index.jsx"] := by
  have h : ∀ p, existsPath fsDet1 p = existsPath fsDet2 p := by
    intro p
    by_cases h1 : p = ["App.jsx"]
    · subst h1; decide
    · by_cases h2 : p = ["index.css"]
      · subst h2; decide
      · have hb1 : (p == (["App.jsx"] : Path)) = false := by simp [h1]
        have hb2 : (p == (["index.css"] : Path)) = false := by simp [h2]
        simp [existsPath, fsDet1, fsDet2, List.lookup, hb1, hb2]
  exact resolver_deterministic "@/App" ["index.jsx"] fsDet1 fsDet2 h

/-- Inserting an already-visited path is a no-op. -/
theorem insertPath_of_mem {v : List Path} {q : Path} (h : q ∈ v) :
    insertPath v q = v := by
  unfold insertPath
  rw [if_pos h]

/-- Inserting a new path puts it in front. -/
theorem insertPath_of_not_mem {v : List Path} {q : Path} (h : q ∉ v) :
    insertPath v q = q :: v := by
  unfold insertPath
  rw [if_neg h]

/-- Membership in one insertion. -/
theorem mem_insertPath (v : List Path) (q x : Path) :
    x ∈ insertPath v q ↔ x = q ∨ x ∈ v := by
  unfold insertPath
  by_cases h : q ∈ v
  · rw [if_pos h]
    constructor
    · exact Or.inr
    · rintro (rfl | hx)
      · exact h
      · exact hx
  · rw [if_neg h]
    exact List.mem_cons

/-- Insertion keeps a distinct visited list distinct. -/
theorem nodup_insertPath (v : List Path) (q : Path) (h : v.Nodup) :
    (insertPath v q).Nodup := by
  unfold insertPath
  by_cases hq : q ∈ v
  · rw [if_pos hq]; exact h
  · rw [if_neg hq]; exact List.nodup_cons.mpr ⟨hq, h⟩

/-- Membership after folding `insertPath` over a worklist. -/
theorem mem_foldl_insert (l : List Path) :
    ∀ (v : List Path) (q : Path),
      q ∈ l.foldl insertPath v ↔ q ∈ v ∨ q ∈ l := by
  induction l with
  | nil => intro v q; simp
  | cons a t ih =>
    intro v q
    rw [List.foldl_cons, ih]
    simp only [mem_insertPath, List.mem_cons]
    tauto

/-- Folding `insertPath` preserves distinctness of the visited list. -/
theorem nodup_foldl_insert (l : List Path) :
    ∀ v : List Path, v.Nodup → (l.foldl insertPath v).Nodup := by
  induction l with
  | nil => intro v hv; exact hv
  | cons a t ih =>
    intro v hv
    rw [List.foldl_cons]
    exact ih _ (nodup_insertPath v a hv)

/-- Folding `insertPath` only ever adds in front of the visited list. -/
theorem foldl_insert_append (l : List Path) :
    ∀ v : List Path, ∃ w, l.foldl insertPath v = w ++ v := by
  induction l with
  | nil => intro v; exact ⟨[], rfl⟩
  | cons a t ih =>
    intro v
    rw [List.foldl_cons]
    by_cases h : a ∈ v
    · rw [insertPath_of_mem h]
      exact ih v
    · rw [insertPath_of_not_mem h]
      obtain ⟨w, hw⟩ := ih (a :: v)
      refine ⟨w ++ [a], ?_⟩
      rw [hw]
      simp

/-- Characterization of one traversal round: a path is visited afterwards
iff it was visited before or is a resolved non-style target of a visited
module. -/
theorem stepList_mem (fs : FS) (v : List Path) (q : Path) :
    q ∈ stepList fs v
      ↔ q ∈ v ∨ ∃ p ∈ v, q ∈ (moduleEdges fs p).map Prod.snd := by
  unfold stepList
  rw [mem_foldl_insert]
  apply or_congr_right
  rw [List.mem_flatten]
  constructor
  · rintro ⟨l, hl, hq⟩
    rcases List.mem_map.mp hl with ⟨p, hp, rfl⟩
    exact ⟨p, hp, hq⟩
  · rintro ⟨p, hp, hq⟩
    exact ⟨(moduleEdges fs p).map Prod.snd, List.mem_map_of_mem _ hp, hq⟩

/-- Every visited path stays visited in the next round. -/
theorem subset_stepList (fs : FS) (v : List Path) : v ⊆ stepList fs v :=
  fun _ hq => (stepList_mem fs v _).mpr (Or.inl hq)

/-- The initial worklist is contained in every traversal iterate. -/
theorem subset_iterate_stepList (fs : FS) (n : Nat) (v : List Path) :
    v ⊆ (stepList fs)^[n] v := by
  induction n with
  | zero => exact fun _ h => h
  | succ n ih =>
    rw [Function.iterate_succ_apply']
    exact fun q hq => subset_stepList fs _ (ih hq)

/-- Soundness: every path visited by the traversal is reachable. -/
theorem reaches_of_mem_iterate (fs : FS) (entry : Path) :
    ∀ n p, p ∈ (stepList fs)^[n] [entry] → Reaches fs entry p := by
  intro n
  induction n with
  | zero =>
    intro p hp
    rw [Function.iterate_zero_apply] at hp
    rw [List.mem_singleton.mp hp]
    exact Reaches.base
  | succ n ih =>
    intro p hp
    rw [Function.iterate_succ_apply'] at hp
    rcases (stepList_mem fs _ p).mp hp with h | ⟨r, hr, hq⟩
    · exact ih p h
    · exact Reaches.step (ih r hr) hq

/-- A path exists in the store iff it is among the record keys. -/
theorem existsPath_iff_mem_keys (fs : FS) (p : Path) :
    existsPath fs p = true ↔ p ∈ fs.files.map Prod.fst := by
  unfold existsPath
  induction fs.files with
  | nil => simp [List.lookup]
  | cons e t ih =>
    obtain ⟨k, r⟩ := e
    by_cases h : p = k
    · subst h
      simp only [List.lookup, beq_self_eq_true, List.map_cons, List.mem_cons]
      exact ⟨fun _ => Or.inl trivial, fun _ => rfl⟩
    · have hb : (p == k) = false := by simp [h]
      simp only [List.lookup, hb, List.map_cons, List.mem_cons]
      rw [ih]
      constructor
      · exact Or.inr
      · rintro (hc | hc)
        · exact absurd hc h
        · exact hc

/-- `resolvePath` only answers `inStore` with a path that exists. -/
theorem resolvePath_inStore_exists (fs : FS) (s : String) (imp p q : Path)
    (h : resolvePath fs s imp p = .inStore q) : existsPath fs q = true := by
  unfold resolvePath at h
  by_cases h1 : existsPath fs p = true
  · rw [if_pos h1] at h
    injection h with h2
    rw [← h2]
    exact h1
  · rw [if_neg h1] at h
    by_cases h2 : hasSourceExt p = true
    · rw [if_pos h2] at h
      simp at h
    · rw [if_neg h2] at h
      cases hf : (probeCandidates p).find? (fun c => existsPath fs c) with
      | none => rw [hf] at h; simp at h
      | some c =>
        rw [hf] at h
        injection h with h3
        rw [← h3]
        simpa using List.find?_some hf

/-- The resolver only answers `inStore` with a path that exists. -/
theorem resolve_inStore_exists (fs : FS) (s : String) (imp q : Path)
    (h : resolve fs s imp = .inStore q) : existsPath fs q = true := by
  unfold resolve at h
  by_cases h1 : isAliasSpec s = true
  · rw [if_pos h1] at h
    exact resolvePath_inStore_exists fs s imp _ q h
  · rw [if_neg h1] at h
    by_cases h2 : isRelativeSpec s = true
    · rw [if_pos h2] at h
      exact resolvePath_inStore_exists fs s imp _ q h
    · rw [if_neg h2] at h
      simp at h

/-- Every resolved non-style target of a module exists in the store. -/
theorem edges_exist (fs : FS) (p q : Path)
    (h : q ∈ (moduleEdges fs p).map Prod.snd) : existsPath fs q = true := by
  rcases List.mem_map.mp h with ⟨e, hmem, rfl⟩
  obtain ⟨s, q2⟩ := e
  have hmem2 : (s, q2) ∈ resolvedTargets fs p := List.mem_of_mem_filter hmem
  rcases List.mem_filterMap.mp hmem2 with ⟨s2, _, heq⟩
  cases hr : resolve fs s2 p with
  | inStore q3 =>
    rw [hr] at heq
    injection heq with h4
    have h5 : q3 = q2 := congrArg Prod.snd h4
    show existsPath fs q2 = true
    rw [← h5]
    exact resolve_inStore_exists fs s2 p q3 hr
  | external s3 => rw [hr] at heq; simp at heq
  | unresolved s3 imp3 => rw [hr] at heq; simp at heq

/-- Every traversal iterate holds only the entry and in-store paths. -/
theorem iterate_subset_store (fs : FS) (entry : Path) :
    ∀ n p, p ∈ (stepList fs)^[n] [entry] →
      p = entry ∨ existsPath fs p = true := by
  intro n
  induction n with
  | zero =>
    intro p hp
    rw [Function.iterate_zero_apply] at hp
    exact Or.inl (List.mem_singleton.mp hp)
  | succ n ih =>
    intro p hp
    rw [Function.iterate_succ_apply'] at hp
    rcases (stepList_mem fs _ p).mp hp with h | ⟨r, _, hq⟩
    · exact ih p h
    · exact Or.inr (edges_exist fs r p hq)

/-- Every traversal iterate is a distinct list of paths. -/
theorem iterate_nodup (fs : FS) (entry : Path) (n : Nat) :
    ((stepList fs)^[n] [entry]).Nodup := by
  induction n with
  | zero => exact List.nodup_singleton entry
  | succ n ih =>
    rw [Function.iterate_succ_apply']
    exact nodup_foldl_insert _ _ ih

/-- The traversal can never visit more paths than the store has files,
plus the entry. -/
theorem iterate_length_le (fs : FS) (entry : Path) (n : Nat) :
    ((stepList fs)^[n] [entry]).length ≤ fs.files.length + 1 := by
  have hnd := iterate_nodup fs entry n
  have hsub : ((stepList fs)^[n] [entry]).toFinset
      ⊆ insert entry (fs.files.map Prod.fst).toFinset := by
    intro p hp
    rw [List.mem_toFinset] at hp
    rcases iterate_subset_store fs entry n p hp with h | h
    · rw [h]
      exact Finset.mem_insert_self entry _
    · rw [existsPath_iff_mem_keys] at h
      exact Finset.mem_insert_of_mem (List.mem_toFinset.mpr h)
  have h1 : ((stepList fs)^[n] [entry]).toFinset.card
      = ((stepList fs)^[n] [entry]).length := List.toFinset_card_of_nodup hnd
  have h2 := Finset.card_le_card hsub
  have h3 := Finset.card_insert_le entry (fs.files.map Prod.fst).toFinset
  have h4 := (fs.files.map Prod.fst).toFinset_card_le
  have h5 : (fs.files.map Prod.fst).length = fs.files.length := List.length_map _ _
  omega

/-- A round that changes the visited list grows it strictly. -/
theorem stepList_growth (fs : FS) (v : List Path)
    (h : stepList fs v ≠ v) : v.length + 1 ≤ (stepList fs v).length := by
  obtain ⟨w, hw⟩ := foldl_insert_append
    ((v.map (fun p => (moduleEdges fs p).map Prod.snd)).flatten) v
  have hw2 : stepList fs v = w ++ v := hw
  cases w with
  | nil => exact absurd hw2 (by simpa using h)
  | cons a w2 =>
    rw [hw2]
    simp only [List.length_append, List.length_cons]
    omega

/-- Dichotomy: after `n` rounds the traversal has either stabilized or
visited at least `n + 1` paths. -/
theorem iterate_fix_dichotomy (fs : FS) (entry : Path) :
    ∀ n, stepList fs ((stepList fs)^[n] [entry]) = (stepList fs)^[n] [entry]
      ∨ n + 1 ≤ ((stepList fs)^[n] [entry]).length := by
  intro n
  induction n with
  | zero => right; simp
  | succ n ih =>
    rcases ih with h | h
    · left
      have e1 : (stepList fs)^[n + 1] [entry] = (stepList fs)^[n] [entry] := by
        rw [Function.iterate_succ_apply']
        exact h
      rw [e1]
      exact h
    · by_cases he : stepList fs ((stepList fs)^[n + 1] [entry])
          = (stepList fs)^[n + 1] [entry]
      · exact Or.inl he
      · right
        by_cases he2 : (stepList fs)^[n + 1] [entry] = (stepList fs)^[n] [entry]
        · exfalso
          apply he
          conv_lhs => rw [he2]
          exact (Function.iterate_succ_apply' (stepList fs) n [entry]).symm
        · have hne : stepList fs ((stepList fs)^[n] [entry])
              ≠ (stepList fs)^[n] [entry] := by
            intro hc
            exact he2 (by rw [Function.iterate_succ_apply']; exact hc)
          have hg := stepList_growth fs ((stepList fs)^[n] [entry]) hne
          rw [Function.iterate_succ_apply']
          omega

/-- The traversal's visited list is a fixed point of one more round. -/
theorem reachList_fixed (fs : FS) (entry : Path) :
    stepList fs (reachList fs entry) = reachList fs entry := by
  unfold reachList
  rcases iterate_fix_dichotomy fs entry (fs.files.length + 1) with h | h
  · exact h
  · exfalso
    have hb := iterate_length_le fs entry (fs.files.length + 1)
    omega

/-- The traversal visits exactly the reachable paths. -/
theorem mem_reachList_iff (fs : FS) (entry : Path) (p : Path) :
    p ∈ reachList fs entry ↔ Reaches fs entry p := by
  constructor
  · exact reaches_of_mem_iterate fs entry _ p
  · intro h
    induction h with
    | base =>
      exact subset_iterate_stepList fs _ [entry] (List.mem_singleton.mpr rfl)
    | step hr he ih =>
      have hmem := (stepList_mem fs (reachList fs entry) _).mpr
        (Or.inr ⟨_, ih, he⟩)
      rwa [reachList_fixed] at hmem

/-- The traversal visits each path at most once. -/
theorem reachList_nodup (fs : FS) (entry : Path) :
    (reachList fs entry).Nodup :=
  iterate_nodup fs entry _

/-- A successful build's module list is one CompiledModule per visited
path. -/
theorem build_ok_modules (fs : FS) (entry : Path) (g : ModuleGraph)
    (m : PreviewManifest) (h : build fs entry = .ok g m) :
    g.modules = buildModules fs entry := by
  unfold build at h
  by_cases h1 : existsPath fs entry = true
  · rw [if_pos h1] at h
    by_cases h2 : (buildDiags fs entry).isEmpty = true
    · rw [if_pos h2] at h
      injection h with hg hm
      rw [← hg]
    · rw [if_neg h2] at h
      simp at h
  · rw [if_neg h1] at h
    simp at h

/-- A successful build's module keys are exactly the visited paths. -/
theorem build_ok_keys (fs : FS) (entry : Path) (g : ModuleGraph)
    (m : PreviewManifest) (h : build fs entry = .ok g m) :
    g.modules.map Prod.fst = reachList fs entry := by
  rw [build_ok_modules fs entry g m h]
  unfold buildModules
  rw [List.map_map]
  exact List.map_id _

/-- A path absent from a list is counted zero times. -/
theorem countPath_eq_zero {l : List Path} {p : Path} (h : p ∉ l) :
    countPath l p = 0 := by
  unfold countPath
  induction l with
  | nil => rfl
  | cons a t ih =>
    have hne : ¬ a = p := fun hc => h (hc ▸ List.mem_cons_self a t)
    rw [List.filter_cons, if_neg (by simp [hne])]
    exact ih (fun hc => h (List.mem_cons_of_mem a hc))

/-- A member of a distinct path list is counted exactly once. -/
theorem countPath_eq_one {l : List Path} {p : Path}
    (hnd : l.Nodup) (hmem : p ∈ l) : countPath l p = 1 := by
  induction l with
  | nil => exact absurd hmem (List.not_mem_nil p)
  | cons a t ih =>
    rcases List.mem_cons.mp hmem with h | h
    · subst h
      unfold countPath
      rw [List.filter_cons, if_pos (by simp)]
      have hz := countPath_eq_zero (List.nodup_cons.mp hnd).1
      unfold countPath at hz
      simp [hz]
    · have hne : ¬ a = p := by
        intro hc
        subst hc
        exact (List.nodup_cons.mp hnd).1 h
      unfold countPath
      rw [List.filter_cons, if_neg (by simp [hne])]
      exact ih (List.nodup_cons.mp hnd).2 h

/-- Looking up a key in a keyed map over a distinct key list finds the
mapped value. -/
theorem lookup_map_of_nodup {β : Type} (f : Path → β) :
    ∀ (l : List Path), l.Nodup → ∀ p ∈ l,
      (l.map (fun q => (q, f q))).lookup p = some (f p) := by
  intro l
  induction l with
  | nil => intro _ p hp; exact absurd hp (List.not_mem_nil p)
  | cons a t ih =>
    intro hnd p hp
    rw [List.map_cons]
    rcases List.mem_cons.mp hp with h | h
    · subst h
      simp only [List.lookup, beq_self_eq_true]
    · have hne : p ≠ a := by
        intro hc
        subst hc
        exact (List.nodup_cons.mp hnd).1 h
      have hb : (p == a) = false := by simp [hne]
      simp only [List.lookup, hb]
      exact ih (List.nodup_cons.mp hnd).2 p h

/-- An import that resolves in-store to a non-style file is an edge of
the importing module's resolution table. -/
theorem edge_mem_moduleEdges (fs : FS) (pA pB : Path) (sB : String)
    (hs : sB ∈ importsOf fs pA) (hr : resolve fs sB pA = .inStore pB)
    (hk : ¬ kindOfPath pB = .style) : (sB, pB) ∈ moduleEdges fs pA := by
  unfold moduleEdges
  apply List.mem_filter.mpr
  refine ⟨?_, ?_⟩
  · unfold resolvedTargets
    apply List.mem_filterMap.mpr
    refine ⟨sB, hs, ?_⟩
    rw [hr]
  · simp [hk]

/-- C2: a successful build's ModuleGraph holds a CompiledModule for a path
iff that path is transitively reachable from the entry via resolvable
edges, and its path keys are distinct (each reachable file is compiled
exactly once; unreachable files never appear). -/
theorem graph_completeness (fs : FS) (entry : Path) (g : ModuleGraph)
    (m : PreviewManifest) (h : build fs entry = .ok g m) (p : Path) :
    ((∃ cm, (p, cm) ∈ g.modules) ↔ Reaches fs entry p)
      ∧ (g.modules.map Prod.fst).Nodup := by
  have hmods := build_ok_modules fs entry g m h
  have hkeys := build_ok_keys fs entry g m h
  constructor
  · rw [hmods]
    unfold buildModules
    constructor
    · rintro ⟨cm, hcm⟩
      rcases List.mem_map.mp hcm with ⟨q, hq, heq⟩
      have hq2 : q = p := congrArg Prod.fst heq
      rw [← hq2]
      exact (mem_reachList_iff fs entry q).mp hq
    · intro hr
      exact ⟨compileModule fs p,
        List.mem_map_of_mem _ ((mem_reachList_iff fs entry p).mpr hr)⟩
  · rw [hkeys]
    exact reachList_nodup fs entry

/-- Witness for C2: the build of `fsGraph` succeeds, and `/Unused.jsx` is in
the graph exactly when it is reachable (it is not). -/
theorem graph_completeness_witness :
    ((∃ cm, (["Unused.jsx"], cm) ∈ graphG.modules)
        ↔ Reaches fsGraph ["App.jsx"] ["Unused.jsx"])
      ∧ (graphG.modules.map Prod.fst).Nodup :=
  graph_completeness fsGraph ["App.jsx"] graphG graphM (by decide) ["Unused.jsx"]

/-- C3: for two distinct files reachable from the entry that import each
other, a successful build compiles each exactly once, and each module's
resolution table maps its specifier for the other file to the other file's
stable handle (the traversal terminates by construction). -/
theorem cycle_safety (fs : FS) (entry pA pB : Path) (sA sB : String)
    (g : ModuleGraph) (m : PreviewManifest)
    (hbuild : build fs entry = .ok g m)
    (hne : pA ≠ pB)
    (hReach : Reaches fs entry pA)
    (hsB : sB ∈ importsOf fs pA) (hrB : resolve fs sB pA = .inStore pB)
    (hkB : ¬ kindOfPath pB = .style)
    (hsA : sA ∈ importsOf fs pB) (hrA : resolve fs sA pB = .inStore pA)
    (hkA : ¬ kindOfPath pA = .style) :
    (countPath (g.modules.map Prod.fst) pA = 1
        ∧ countPath (g.modules.map Prod.fst) pB = 1)
      ∧ (∃ cmA, g.modules.lookup pA = some cmA
          ∧ (sB, pB) ∈ cmA.table ∧ cmA.handle = pA)
      ∧ (∃ cmB, g.modules.lookup pB = some cmB
          ∧ (sA, pA) ∈ cmB.table ∧ cmB.handle = pB) := by
  have hedgeB := edge_mem_moduleEdges fs pA pB sB hsB hrB hkB
  have hedgeA := edge_mem_moduleEdges fs pB pA sA hsA hrA hkA
  have hReachB : Reaches fs entry pB :=
    Reaches.step hReach (List.mem_map_of_mem Prod.snd hedgeB)
  have hmemA := (mem_reachList_iff fs entry pA).mpr hReach
  have hmemB := (mem_reachList_iff fs entry pB).mpr hReachB
  have hkeys := build_ok_keys fs entry g m hbuild
  have hmods := build_ok_modules fs entry g m hbuild
  have hnd := reachList_nodup fs entry
  refine ⟨⟨?_, ?_⟩, ?_, ?_⟩
  · rw [hkeys]
    exact countPath_eq_one hnd hmemA
  · rw [hkeys]
    exact countPath_eq_one hnd hmemB
  · rw [hmods]
    unfold buildModules
    exact ⟨compileModule fs pA,
      lookup_map_of_nodup _ _ hnd pA hmemA, hedgeB, rfl⟩
  · rw [hmods]
    unfold buildModules
    exact ⟨compileModule fs pB,
      lookup_map_of_nodup _ _ hnd pB hmemB, hedgeA, rfl⟩

/-- Witness for C3: `/A.jsx` and `/B.jsx` import each other, the build
terminates and succeeds, each is compiled once, and each resolution table
maps the other's specifier to the other's handle. -/
theorem cycle_safety_witness :
    ((countPath (cycGraph.modules.map Prod.fst) ["A.jsx"] = 1
        ∧ countPath (cycGraph.modules.map Prod.fst) ["B.jsx"] = 1))
      ∧ (∃ cmA, cycGraph.modules.lookup ["A.jsx"] = some cmA
          ∧ ("@/B", ["B.jsx"]) ∈ cmA.table ∧ cmA.handle = ["A.jsx"])
      ∧ (∃ cmB, cycGraph.modules.lookup ["B.jsx"] = some cmB
          ∧ ("@/A", ["A.jsx"]) ∈ cmB.table ∧ cmB.handle = ["B.jsx"]) :=
  cycle_safety fsCyc ["A.jsx"] ["A.jsx"] ["B.jsx"] "@/A" "@/B"
    cycGraph cycManifest (by decide) (by decide) Reaches.base
    (by decide) (by decide) (by decide) (by decide) (by decide) (by decide)

/-- C8: when the entry is absent or fails to transform, the build returns
BuildFailed and no manifest is produced or executed; and a RuntimeError
outcome can only arise from an error thrown while executing the manifest of
a successful build. -/
theorem build_failure_channels (fs : FS) (entry : Path)
    (exec : PreviewManifest → Except String Unit) :
    ((existsPath fs entry = false ∨ transformErrOf fs entry ≠ none) →
        ∃ d, build fs entry = .buildFailed d
          ∧ runPreview fs entry exec = .buildFailedOutcome d)
      ∧ (∀ msg, runPreview fs entry exec = .runtimeError msg →
        ∃ g m, build fs entry = .ok g m ∧ exec m = .error msg) := by
  constructor
  · intro h
    have hfail : ∃ d, build fs entry = .buildFailed d := by
      by_cases h1 : existsPath fs entry = true
      · rcases h with h | h
        · rw [h1] at h
          exact absurd h (by simp)
        · obtain ⟨e, he⟩ := Option.ne_none_iff_exists'.mp h
          have hment : entry ∈ reachList fs entry :=
            subset_iterate_stepList fs _ [entry] (List.mem_singleton.mpr rfl)
          have hdm : BuildDiag.fileError entry e ∈ buildDiags fs entry := by
            unfold buildDiags
            apply List.mem_filterMap.mpr
            refine ⟨entry, hment, ?_⟩
            rw [he]
            rfl
          have hne2 : ¬ (buildDiags fs entry).isEmpty = true := by
            intro hc
            rw [List.isEmpty_iff] at hc
            rw [hc] at hdm
            exact absurd hdm (List.not_mem_nil _)
          refine ⟨buildDiags fs entry, ?_⟩
          unfold build
          rw [if_pos h1, if_neg hne2]
      · refine ⟨[.entryMissing entry], ?_⟩
        unfold build
        rw [if_neg h1]
    obtain ⟨d, hd⟩ := hfail
    refine ⟨d, hd, ?_⟩
    unfold runPreview
    rw [hd]
  · intro msg hrt
    cases hb : build fs entry with
    | buildFailed d =>
      have hrt2 : PreviewOutcome.buildFailedOutcome d
          = PreviewOutcome.runtimeError msg := by
        unfold runPreview at hrt
        rw [hb] at hrt
        exact hrt
      exact absurd hrt2 (by simp)
    | ok g m =>
      have hrt2 : (match exec m with
          | Except.ok _ => PreviewOutcome.renderedOK
          | Except.error msg2 => PreviewOutcome.runtimeError msg2)
          = PreviewOutcome.runtimeError msg := by
        unfold runPreview at hrt
        rw [hb] at hrt
        exact hrt
      cases he : exec m with
      | ok u =>
        rw [he] at hrt2
        simp at hrt2
      | error m2 =>
        rw [he] at hrt2
        injection hrt2 with h2
        refine ⟨g, m, rfl, ?_⟩
        rw [he, h2]

/-- Witness for C8: on the empty store the entry is absent, the build fails
wholesale and the preview reports the BuildFailed channel. -/
theorem build_failure_channels_witness :
    ∃ d, build emptyFS ["App.jsx"] = .buildFailed d
      ∧ runPreview emptyFS ["App.jsx"] execOk = .buildFailedOutcome d :=
  (build_failure_channels emptyFS ["App.jsx"] execOk).1 (Or.inl rfl)

/-- C9: `useChat` never hands an undefined context to its caller — outside a
ChatProvider it throws the provider error, and inside one it returns the
provided value, whose status defaults to "idle" exactly when the underlying
status is undefined. -/
theorem useChat_context_semantics (v : ChatContextValue)
    (ms : List String) (inp st : String) :
    useChatHook none = .error "useChat must be used within a ChatProvider"
      ∧ useChatHook (some v) = .ok v
      ∧ (providerValue ms inp none).status = "idle"
      ∧ (providerValue ms inp (some st)).status = st :=
  ⟨rfl, rfl, rfl, rfl⟩

/-- C10: every submission prevents the default form action; a message is
sent iff the input is non-empty after trimming, in which case the untrimmed
input is sent and the field is cleared; an all-whitespace input sends
nothing and leaves the field unchanged. -/
theorem handleSubmit_semantics (s : ChatFormState) :
    (handleSubmit s).defaultPrevented = true
      ∧ (if s.input.trim = "" then
            (handleSubmit s).sent = s.sent ∧ (handleSubmit s).input = s.input
          else
            (handleSubmit s).sent = s.sent ++ [s.input]
              ∧ (handleSubmit s).input = "") := by
  by_cases h : s.input.trim = "" <;> simp [handleSubmit, h]

end UIGen
